import Mathlib

open scoped List

set_option maxRecDepth 100000

/-!
Shallow embedding of `dashboard.py` (Hi-C Tools Interactive Dashboard):
the catalog parser `parse_readme` and the search/category filter logic of
`main`.  Strings are modelled as `List Char`.  The regular expressions in
the source use only literal text, negated single-character classes and one
optional group whose body starts with a character that the fallback
position can never match, so each of them is modelled by a deterministic
character scanner (no backtracking is observable).
-/

/-- ASCII model of Python whitespace (`str.strip` with no argument, regex
class of blanks). -/
def pyIsSpace (c : Char) : Bool :=
  decide (c = ' ' ∨ c = '\t' ∨ c = '\n' ∨ c = '\r' ∨ c = '\x0b' ∨ c = '\x0c')

/-- Left part of Python `str.strip()`. -/
def lstrip (s : List Char) : List Char := s.dropWhile pyIsSpace

/-- Right part of Python `str.strip()`. -/
def rstrip (s : List Char) : List Char := (s.reverse.dropWhile pyIsSpace).reverse

/-- Python `str.strip()` on ASCII. -/
def pyStrip (s : List Char) : List Char := rstrip (lstrip s)

/-- Python `str.lower()` on ASCII. -/
def pyLower (s : List Char) : List Char := s.map Char.toLower

/-- `some r` when `lit` is a literal prefix of `s`, `r` the remainder. -/
def dropLit : List Char → List Char → Option (List Char)
  | [], s => some s
  | _, [] => none
  | a :: as, b :: bs => if a = b then dropLit as bs else none

/-- Index of the first occurrence of `sep` inside `s`. -/
def findSub (sep : List Char) : List Char → Option Nat
  | [] => if sep = [] then some 0 else none
  | c :: rest =>
    if (dropLit sep (c :: rest)).isSome then some 0
    else (findSub sep rest).map (· + 1)

/-- Fuelled splitting on a literal separator: models `re.split` with a
literal pattern (equivalently `str.split(sep)`); for a non-empty separator
a fuel of `s.length + 1` always suffices. -/
def splitOnSepFuel (sep : List Char) : Nat → List Char → List (List Char)
  | 0, s => [s]
  | fuel + 1, s =>
    match findSub sep s with
    | none => [s]
    | some i => s.take i :: splitOnSepFuel sep fuel (s.drop (i + sep.length))

/-- Split on a literal separator. -/
def splitOnSep (sep s : List Char) : List (List Char) :=
  splitOnSepFuel sep (s.length + 1) s

/-- One catalog entry: the `tool_info` dict built by `parse_readme`. -/
structure Tool where
  name : List Char
  url : List Char
  category : List Char
  description : List Char
  id : List Char
deriving DecidableEq

/-- The category index (`defaultdict(list)` then `dict(...)`): an
association list in key first-insertion order. -/
abbrev Index := List (List Char × List Tool)

/-- `categories[cat].append(t)` on a `defaultdict(list)`: append into the
existing bucket, or create a new bucket at the end. -/
def indexAdd (idx : Index) (cat : List Char) (t : Tool) : Index :=
  match idx with
  | [] => [(cat, [t])]
  | (c, ts) :: rest =>
    if c = cat then (c, ts ++ [t]) :: rest else (c, ts) :: indexAdd rest cat t

/-- Repeated `indexAdd` for the tools of one section, in order. -/
def indexAddAll (idx : Index) (cat : List Char) (ts : List Tool) : Index :=
  ts.foldl (fun ix t => indexAdd ix cat t) idx

/-- The optional anchor atom of the entry pattern, returning the captured
name attribute and the remainder.  When this atom matches, the line
position starts with an angle bracket, so the regex engine's retry without
the optional group can never reach the bracketed link: a deterministic
scanner is faithful. -/
def matchAnchor (s : List Char) : Option (List Char × List Char) :=
  match dropLit (("<a name=\"").data) s with
  | none => none
  | some r =>
    let g := r.takeWhile (fun c => decide (c ≠ '"'))
    if g = [] then none
    else
      match dropLit (("\">").data) (r.drop g.length) with
      | none => none
      | some r2 => some (g, r2)

/-- The markdown-link part of the entry pattern: bracketed display text,
parenthesised target, and the remainder of the line after the closing
parenthesis. -/
def matchLink (s : List Char) : Option (List Char × List Char × List Char) :=
  match s with
  | [] => none
  | c :: r =>
    if c = '[' then
      let g2 := r.takeWhile (fun x => decide (x ≠ ']'))
      if g2 = [] then none
      else
        match r.drop g2.length with
        | d :: e :: r2 =>
          if d = ']' ∧ e = '(' then
            let g3 := r2.takeWhile (fun x => decide (x ≠ ')'))
            if g3 = [] then none
            else
              match r2.drop g3.length with
              | f :: rest => if f = ')' then some (g2, g3, rest) else none
              | [] => none
          else none
        | _ => none
    else none

/-- The whole entry pattern of `parse_readme` (line 99) applied at the
start of a line: dash, optional blanks, optional anchor, link.  Returns
(the id capture or the empty string, name, url, text after the match). -/
def entryMatch (line : List Char) :
    Option (List Char × List Char × List Char × List Char) :=
  match line with
  | [] => none
  | c :: rest =>
    if c = '-' then
      match matchAnchor (rest.dropWhile pyIsSpace) with
      | some (a, r2) =>
        match matchLink r2 with
        | some (n, u, rr) => some (a, n, u, rr)
        | none => none
      | none =>
        match matchLink (rest.dropWhile pyIsSpace) with
        | some (n, u, rr) => some ([], n, u, rr)
        | none => none
    else none

/-- Drop everything from the first details tag on: the substitution of an
unanchored dot-all match of a details tag and all following text by the
empty string (line 111). -/
def stripDetails (s : List Char) : List Char :=
  match findSub (("<details>").data) s with
  | none => s
  | some i => s.take i

/-- The description before truncation: strip, drop a leading dash
separator and strip again, then remove the details block (lines 106-111). -/
def descPreTrunc (rest : List Char) : List Char :=
  let d1 := pyStrip rest
  let d2 := if (("- ").data).isPrefixOf d1 then pyStrip (d1.drop 2) else d1
  stripDetails d2

/-- The stored description: truncate to 300 characters and append an
ellipsis when longer than 300 (line 112). -/
def mkDescription (rest : List Char) : List Char :=
  let d := descPreTrunc rest
  if 300 < d.length then d.take 300 ++ (("...").data) else d

/-- Category update from a section's first line: the match of one or more
characters that are neither a hash nor a newline, stripped; the previous
category is kept when that match fails (lines 88-90). -/
def categoryOf (line current : List Char) : List Char :=
  let g := line.takeWhile (fun c => decide (c ≠ '#' ∧ c ≠ '\n'))
  if g = [] then current else pyStrip g

/-- The two navigational headings the parser skips (line 93). -/
def skippedCats : List (List Char) :=
  [(("Table of content").data), (("How to View This README").data)]

/-- One iteration of the section loop: the updated current category and
the tools produced while scanning this section's lines in order. -/
def processSection (cat sec : List Char) : List Char × List Tool :=
  let lines := splitOnSep (("\n").data) sec
  let cat2 := categoryOf (lines.headD []) cat
  if cat2 ∈ skippedCats then (cat2, [])
  else
    (cat2, lines.filterMap (fun line =>
      match entryMatch line with
      | none => none
      | some (i, n, u, rest) => some ⟨n, u, cat2, mkDescription rest, i⟩))

/-- The section loop of `parse_readme`, threading the current category and
appending each produced tool to the flat list and to its category's
bucket. -/
def processSections : List Char → List Tool → Index → List (List Char) → List Tool × Index
  | _, tools, idx, [] => (tools, idx)
  | cat, tools, idx, sec :: rest =>
    let r := processSection cat sec
    processSections r.1 (tools ++ r.2) (indexAddAll idx r.1 r.2) rest

/-- The pure part of `parse_readme`: document content to flat tool list
and category index. -/
def parseContent (content : List Char) : List Tool × Index :=
  processSections (("General").data) [] [] (splitOnSep (("\n## ").data) content)

/-- `parse_readme`: the document read may fail (modelled as `Except`); a
failure is caught, an error message is surfaced (the second component
models the displayed error) and empty containers are returned. -/
def parse_readme (readResult : Except (List Char) (List Char)) :
    (List Tool × Index) × Option (List Char) :=
  match readResult with
  | Except.error e => (([], []), some ((("Error parsing README: ").data) ++ e))
  | Except.ok content => (parseContent content, none)

/-- The section loop instrumented with an injected exception after `k`
sections: the whole body of `parse_readme` sits in one handler, so an
exception can interrupt the loop with lists partially built. -/
def processSectionsExc : Nat → List Char → List Tool → Index → List (List Char) →
    Except Unit (List Tool × Index)
  | _, _, tools, idx, [] => Except.ok (tools, idx)
  | 0, _, _, _, _ :: _ => Except.error ()
  | k + 1, cat, tools, idx, sec :: rest =>
    let r := processSection cat sec
    processSectionsExc k r.1 (tools ++ r.2) (indexAddAll idx r.1 r.2) rest

/-- `parse_readme` under the injected exception: the handler returns fresh
empty containers whatever partial state the loop had built. -/
def parse_readme_exc (readResult : Except (List Char) (List Char)) (k : Nat) :
    List Tool × Index :=
  match readResult with
  | Except.error _ => ([], [])
  | Except.ok content =>
    match processSectionsExc k (("General").data) [] []
        (splitOnSep (("\n## ").data) content) with
    | Except.error _ => ([], [])
    | Except.ok r => r

/-- Python `needle in hay` on strings: contiguous substring test. -/
def containsSub (p : List Char) : List Char → Bool
  | [] => p.isEmpty
  | c :: rest => p.isPrefixOf (c :: rest) || containsSub p rest

/-- The search predicate of `main` (lines 206-211): the lower-cased query
occurs inside the lower-cased name, description or category. -/
def toolMatches (q : List Char) (t : Tool) : Bool :=
  containsSub (pyLower q) (pyLower t.name) ||
  containsSub (pyLower q) (pyLower t.description) ||
  containsSub (pyLower q) (pyLower t.category)

/-- The filter logic of `main` (lines 203-214): a truthiness test on the
query gates the search filter, then a non-sentinel category selection
gates the category filter. -/
def filterTools (tools : List Tool) (q c : List Char) : List Tool :=
  let t1 := if q ≠ [] then tools.filter (toolMatches q) else tools
  if c ≠ (("All").data) then t1.filter (fun t => decide (t.category = c)) else t1

/-- The five-line example document of the specification. -/
def doc1 : List Char :=
  ("## Aligners\n- [ToolA](http://a.example) - Fast aligner for short reads\n- [ToolB](http://b.example) Handles long reads too\n## Table of content\n- [Ignored](http://x.example) should not appear").data

/-- The record the parser produces for the example's first entry. -/
def toolA : Tool :=
  ⟨(("ToolA").data), (("http://a.example").data), (("General").data),
    (("Fast aligner for short reads").data), []⟩

/-- The record the parser produces for the example's second entry. -/
def toolB : Tool :=
  ⟨(("ToolB").data), (("http://b.example").data), (("General").data),
    (("Handles long reads too").data), []⟩

/-- A document whose only heading consists of blanks: the stripped heading
text is empty. -/
def docWS : List Char := ("\n##   \n- [A](u) x").data

/-- A document whose very first characters are the table-of-content
heading, so the heading is not preceded by a newline. -/
def docTOC : List Char := ("## Table of content\n- [A](http://x) y").data

/-- A 301-character description body. -/
def r301 : List Char := List.replicate 301 'a'

/-- An entry line with an anchor tag. -/
def line10 : List Char := ("- <a name=\"abc\">[T](http://t) d").data

/-- The index invariant of the parser: bucket keys are distinct, the keys
are exactly the categories occurring in the flat list, and each bucket
holds exactly the flat list's records of its key's category, in order. -/
def IndexInv (tools : List Tool) (idx : Index) : Prop :=
  (idx.map Prod.fst).Nodup ∧
  (∀ c, c ∈ idx.map Prod.fst ↔ c ∈ tools.map Tool.category) ∧
  (∀ p ∈ idx, p.2 = tools.filter (fun t => decide (t.category = p.1)))

theorem filterTools_sublist (tools : List Tool) (q c : List Char) :
    filterTools tools q c <+ tools := by
  unfold filterTools
  by_cases hq : q = [] <;> by_cases hc : c = (("All").data) <;>
    simp only [hq, hc, ne_eq, not_true_eq_false, not_false_eq_true, if_true, if_false,
      ite_not, List.filter_sublist] <;>
    first
      | exact List.Sublist.refl _
      | exact List.filter_sublist _
      | exact (List.filter_sublist _).trans (List.filter_sublist _)

/-- Claim C1, counterexample: on the specification's five-line example
document the two records carry category "General", not "Aligners" — the
leading heading is not preceded by a newline, so the split on the literal
newline-hash-hash-blank separator never isolates it and the heading match
fails on the hash character. -/
theorem c1_counterexample :
    (parseContent doc1).1.map Tool.category = [(("General").data), (("General").data)] ∧
    (("General").data) ≠ (("Aligners").data) := by
  constructor
  · decide
  · decide

/-- Claim C1, amended: the example document yields exactly the records
ToolA and ToolB in order, with the stated names, urls and descriptions,
but both with category "General"; the Ignored entry of the (recognised
and skipped) table-of-content section appears neither in the flat list nor
in the index, whose only bucket is the "General" one. -/
theorem c1_example_parse :
    parseContent doc1 = ([toolA, toolB], [((("General").data), [toolA, toolB])]) := by
  decide

/-- Claim C6: the filter with empty query and the "All" category sentinel
is the identity, and for every query and category the output is a sublist
of the input — in particular no longer than it and in the input's relative
order. -/
theorem c6_filter_monotone (tools : List Tool) (q c : List Char) :
    filterTools tools [] (("All").data) = tools ∧
    (filterTools tools q c).length ≤ tools.length ∧
    filterTools tools q c <+ tools := by
  refine ⟨?_, (filterTools_sublist tools q c).length_le, filterTools_sublist tools q c⟩
  simp [filterTools]

/-- Claim C7: when the document read fails, `parse_readme` catches the
failure, surfaces an error message, and returns the empty record list and
the empty category index. -/
theorem c7_document_unavailable (e : List Char) :
    parse_readme (Except.error e) =
      (([], []), some ((("Error parsing README: ").data) ++ e)) := rfl

/-- Claim C8: whenever the injected exception fires anywhere inside the
parsing loop, `parse_readme` returns exactly the empty list and the empty
index — the partially built containers never escape the handler. -/
theorem c8_exception_atomicity (content : List Char) (k : Nat)
    (h : processSectionsExc k (("General").data) [] []
        (splitOnSep (("\n## ").data) content) = Except.error ()) :
    parse_readme_exc (Except.ok content) k = ([], []) := by
  simp [parse_readme_exc, h]

/-- Claim C8, witness: on the example document an exception after the
first section interrupts the loop with two records already built, yet the
result is empty. -/
theorem c8_witness :
    parse_readme_exc (Except.ok doc1) 1 = ([], []) ∧
    (processSections (("General").data) [] []
      (splitOnSep (("\n## ").data) doc1)).1 = [toolA, toolB] :=
  ⟨c8_exception_atomicity doc1 1 rfl, by decide⟩

/-- Claim C3, counterexample: for a 301-character description the stored
description (300 characters plus the three-character ellipsis) is not a
prefix of the original pre-truncation description — a 303-character string
cannot be a prefix of a 301-character one. -/
theorem c3_counterexample :
    300 < (descPreTrunc r301).length ∧
    (mkDescription r301).length = 303 ∧
    ¬ (mkDescription r301 <+: descPreTrunc r301) :=
  ⟨by decide, by decide, by decide⟩

/-- Claim C3, amended: for every entry text whose description is longer
than 300 characters after the dash strip and the details strip, the stored
description has length exactly 303, equals the first 300 characters of the
original followed by the ellipsis, and its first 300 characters are a
prefix of the original. -/
theorem c3_truncation (rest : List Char)
    (h : 300 < (descPreTrunc rest).length) :
    (mkDescription rest).length = 303 ∧
    mkDescription rest = (descPreTrunc rest).take 300 ++ (("...").data) ∧
    (mkDescription rest).take 300 <+: descPreTrunc rest := by
  have hm : mkDescription rest = (descPreTrunc rest).take 300 ++ (("...").data) := by
    simp only [mkDescription]
    rw [if_pos h]
  have hlen : ((descPreTrunc rest).take 300).length = 300 := by
    simp only [List.length_take]
    omega
  refine ⟨?_, hm, ?_⟩
  · rw [hm]
    have h3 : ((("...").data) : List Char).length = 3 := rfl
    rw [List.length_append, hlen, h3]
  · rw [hm, List.take_left' hlen]
    exact List.take_prefix 300 _

/-- Claim C3, witness: the 301-character description satisfies the
truncation hypothesis and yields a 303-character stored description. -/
theorem c3_witness :
    300 < (descPreTrunc r301).length ∧ (mkDescription r301).length = 303 :=
  ⟨by decide, (c3_truncation r301 (by decide)).1⟩

theorem matchLink_fields {s n u r : List Char}
    (h : matchLink s = some (n, u, r)) : n ≠ [] ∧ u ≠ [] := by
  unfold matchLink at h
  dsimp only [] at h
  split at h
  · exact absurd h (by simp)
  · split at h
    · split at h
      · exact absurd h (by simp)
      · rename_i hg2
        split at h
        · split at h
          · split at h
            · exact absurd h (by simp)
            · rename_i hg3
              split at h
              · split at h
                · simp only [Option.some.injEq, Prod.mk.injEq] at h
                  obtain ⟨hn, hu, -⟩ := h
                  subst hn; subst hu
                  exact ⟨hg2, hg3⟩
                · exact absurd h (by simp)
              · exact absurd h (by simp)
          · exact absurd h (by simp)
        · exact absurd h (by simp)
    · exact absurd h (by simp)

theorem entryMatch_fields {line i n u r : List Char}
    (h : entryMatch line = some (i, n, u, r)) : n ≠ [] ∧ u ≠ [] := by
  unfold entryMatch at h
  split at h
  · exact absurd h (by simp)
  · split at h
    · split at h
      · split at h
        · rename_i heq
          simp only [Option.some.injEq, Prod.mk.injEq] at h
          obtain ⟨-, hn, hu, -⟩ := h
          subst hn; subst hu
          exact matchLink_fields heq
        · exact absurd h (by simp)
      · split at h
        · rename_i heq
          simp only [Option.some.injEq, Prod.mk.injEq] at h
          obtain ⟨-, hn, hu, -⟩ := h
          subst hn; subst hu
          exact matchLink_fields heq
        · exact absurd h (by simp)
    · exact absurd h (by simp)

/-- Claim C10: for an entry line matching the entry pattern, the produced
id is the empty string exactly when the anchor atom does not match (the
`or` fallback for the missing capture group), and equals the anchor's
captured name attribute verbatim when it does; by the type of `Tool.id`
the id is always a string, never a null value. -/
theorem c10_id_field (line i n u r : List Char)
    (h : entryMatch line = some (i, n, u, r)) :
    (matchAnchor (line.tail.dropWhile pyIsSpace) = none → i = []) ∧
    (∀ a rest2, matchAnchor (line.tail.dropWhile pyIsSpace) = some (a, rest2) → i = a) := by
  cases line with
  | nil => exact absurd h (by simp [entryMatch])
  | cons c rest =>
    simp only [List.tail_cons]
    simp only [entryMatch] at h
    split at h
    · split at h
      · rename_i a0 r2 heq
        cases hl : matchLink r2 with
        | none => rw [hl] at h; exact absurd h (by simp)
        | some q =>
          obtain ⟨n2, u2, rr⟩ := q
          rw [hl] at h
          simp only [Option.some.injEq, Prod.mk.injEq] at h
          obtain ⟨hi, -, -, -⟩ := h
          subst hi
          constructor
          · intro hnone
            rw [heq] at hnone
            exact absurd hnone (by simp)
          · intro a rest2 hsome
            rw [heq] at hsome
            simp only [Option.some.injEq, Prod.mk.injEq] at hsome
            exact hsome.1
      · rename_i heq
        cases hl : matchLink (rest.dropWhile pyIsSpace) with
        | none => rw [hl] at h; exact absurd h (by simp)
        | some q =>
          obtain ⟨n2, u2, rr⟩ := q
          rw [hl] at h
          simp only [Option.some.injEq, Prod.mk.injEq] at h
          obtain ⟨hi, -, -, -⟩ := h
          constructor
          · intro _
            exact hi.symm
          · intro a rest2 hsome
            rw [heq] at hsome
            exact absurd hsome (by simp)
    · exact absurd h (by simp)

/-- Claim C10, witness: a concrete anchored entry line whose id equals the
anchor's captured name. -/
theorem c10_witness :
    entryMatch line10 =
      some ((("abc").data), (("T").data), (("http://t").data), ((" d").data)) ∧
    (("abc").data : List Char) = (("abc").data) :=
  ⟨by decide,
    (c10_id_field line10 (("abc").data) (("T").data) (("http://t").data) ((" d").data)
        (by decide)).2 (("abc").data) (("[T](http://t) d").data) (by decide)⟩

theorem containsSub_iff (p : List Char) : ∀ s, containsSub p s = true ↔ p <:+: s := by
  intro s
  induction s with
  | nil => simp [containsSub, List.isEmpty_iff]
  | cons c rest ih => simp [containsSub, List.infix_cons_iff, ih]

/-- Claim C5: the filter includes a record exactly when the lower-cased
query is empty or occurs as a substring of the lower-cased name,
description or category, AND the selected category is the "All" sentinel
or equals the record's category exactly — the two predicates compose
conjunctively. -/
theorem c5_filter_iff (tools : List Tool) (q c : List Char) (t : Tool) :
    t ∈ filterTools tools q c ↔
      t ∈ tools ∧
      (pyLower q = [] ∨ pyLower q <:+: pyLower t.name ∨
        pyLower q <:+: pyLower t.description ∨ pyLower q <:+: pyLower t.category) ∧
      (c = (("All").data) ∨ t.category = c) := by
  have hq0 : pyLower q = [] ↔ q = [] := by simp [pyLower]
  unfold filterTools
  by_cases hq : q = [] <;> by_cases hc : c = (("All").data) <;>
    simp [hq, hc, hq0, List.mem_filter, toolMatches, containsSub_iff] <;> tauto

/-- Claim C5, witness: a record matched by a concrete non-empty query
under the "All" sentinel. -/
theorem c5_witness : toolA ∈ filterTools [toolA] (("Tool").data) (("All").data) :=
  (c5_filter_iff [toolA] (("Tool").data) (("All").data) toolA).mpr
    ⟨by decide, Or.inr (Or.inl (by decide)), Or.inl rfl⟩

theorem processSection_mem {cat sec : List Char} {t : Tool}
    (h : t ∈ (processSection cat sec).2) :
    t.category = (processSection cat sec).1 ∧
    (processSection cat sec).1 ∉ skippedCats ∧
    t.name ≠ [] ∧ t.url ≠ [] := by
  unfold processSection at *
  dsimp only [] at *
  by_cases hskip : categoryOf ((splitOnSep (("\n").data) sec).headD []) cat ∈ skippedCats
  · rw [if_pos hskip] at h
    exact absurd h (by simp)
  · rw [if_neg hskip] at h ⊢
    simp only [List.mem_filterMap] at h
    obtain ⟨line, -, hline⟩ := h
    cases he : entryMatch line with
    | none => rw [he] at hline; exact absurd hline (by simp)
    | some quad =>
      obtain ⟨i, n, u, rest⟩ := quad
      rw [he] at hline
      simp only [Option.some.injEq] at hline
      subst hline
      exact ⟨rfl, hskip, (entryMatch_fields he).1, (entryMatch_fields he).2⟩

theorem processSections_mem (P : Tool → Prop)
    (hstep : ∀ cat sec t, t ∈ (processSection cat sec).2 → P t) :
    ∀ (secs : List (List Char)) (cat : List Char) (tools : List Tool) (idx : Index),
      (∀ t ∈ tools, P t) → ∀ t ∈ (processSections cat tools idx secs).1, P t := by
  intro secs
  induction secs with
  | nil =>
    intro cat tools idx hbase t ht
    simp only [processSections] at ht
    exact hbase t ht
  | cons sec rest ih =>
    intro cat tools idx hbase t ht
    simp only [processSections] at ht
    refine ih _ _ _ ?_ t ht
    intro t2 ht2
    rcases List.mem_append.mp ht2 with hmem | hmem
    · exact hbase t2 hmem
    · exact hstep cat sec t2 hmem

/-- Claim C2, counterexample: a heading whose text is blanks only produces
an empty category — the heading match succeeds on the blank run and the
strip empties it. -/
theorem c2_counterexample :
    (parseContent docWS).1.map Tool.category = [([] : List Char)] := by decide

/-- Claim C2, amended: every produced record has a non-empty name and a
non-empty url; the category defaults to "General" but can be the empty
string when a recognised heading's text consists solely of blanks. -/
theorem c2_name_url_nonempty (content : List Char) :
    ∀ t ∈ (parseContent content).1, t.name ≠ [] ∧ t.url ≠ [] := by
  intro t ht
  exact processSections_mem (fun t => t.name ≠ [] ∧ t.url ≠ [])
    (fun cat sec t h => ⟨(processSection_mem h).2.2.1, (processSection_mem h).2.2.2⟩)
    _ _ _ _ (by simp) t ht

/-- Claim C2, witness: the example document's first record has non-empty
name and url. -/
theorem c2_witness : toolA.name ≠ [] ∧ toolA.url ≠ [] :=
  c2_name_url_nonempty doc1 toolA (by decide)

theorem indexAdd_keys_mem :
    ∀ (idx : Index) (cat : List Char) (t : Tool) (p : List Char × List Tool),
      p ∈ indexAdd idx cat t → p ∈ idx ∨ p.1 = cat := by
  intro idx cat t
  induction idx with
  | nil =>
    intro p hp
    simp only [indexAdd, List.mem_singleton] at hp
    subst hp
    right
    rfl
  | cons q rest ih =>
    intro p hp
    obtain ⟨c0, ts⟩ := q
    simp only [indexAdd] at hp
    by_cases hc : c0 = cat
    · rw [if_pos hc] at hp
      rcases List.mem_cons.mp hp with h | h
      · subst h
        right
        exact hc
      · left
        exact List.mem_cons_of_mem _ h
    · rw [if_neg hc] at hp
      rcases List.mem_cons.mp hp with h | h
      · left
        subst h
        exact List.mem_cons_self _ _
      · rcases ih p h with h2 | h2
        · left
          exact List.mem_cons_of_mem _ h2
        · right
          exact h2

theorem indexAddAll_cons (idx : Index) (c : List Char) (t : Tool) (ts : List Tool) :
    indexAddAll idx c (t :: ts) = indexAddAll (indexAdd idx c t) c ts := rfl

theorem indexAddAll_keys_mem :
    ∀ (ts : List Tool) (idx : Index) (c : List Char) (p : List Char × List Tool),
      p ∈ indexAddAll idx c ts → p ∈ idx ∨ (ts ≠ [] ∧ p.1 = c) := by
  intro ts
  induction ts with
  | nil =>
    intro idx c p hp
    left
    exact hp
  | cons t ts' ih =>
    intro idx c p hp
    rw [indexAddAll_cons] at hp
    rcases ih (indexAdd idx c t) c p hp with h | h
    · rcases indexAdd_keys_mem idx c t p h with h2 | h2
      · left
        exact h2
      · right
        exact ⟨by simp, h2⟩
    · right
      exact ⟨by simp, h.2⟩

theorem processSections_keys (Pk : List Char → Prop)
    (hstep : ∀ cat sec, (processSection cat sec).2 ≠ [] → Pk (processSection cat sec).1) :
    ∀ (secs : List (List Char)) (cat : List Char) (tools : List Tool) (idx : Index),
      (∀ p ∈ idx, Pk p.1) → ∀ p ∈ (processSections cat tools idx secs).2, Pk p.1 := by
  intro secs
  induction secs with
  | nil =>
    intro cat tools idx hbase p hp
    simp only [processSections] at hp
    exact hbase p hp
  | cons sec rest ih =>
    intro cat tools idx hbase p hp
    simp only [processSections] at hp
    refine ih _ _ _ ?_ p hp
    intro p2 hp2
    rcases indexAddAll_keys_mem _ _ _ _ hp2 with h | h
    · exact hbase p2 h
    · rw [h.2]
      exact hstep cat sec h.1

/-- Claim C4, counterexample: a document whose very first characters are
the table-of-content heading is not recognised as that section — the
heading is not preceded by a newline, the split never isolates it, the
heading match fails on the hash — so its entry is parsed under the
default category instead of being skipped. -/
theorem c4_counterexample :
    (parseContent docTOC).1 =
      [⟨(("A").data), (("http://x").data), (("General").data), (("y").data), []⟩] := by
  decide

/-- Claim C4, amended: a segment whose recognised heading (or carried-over
category) is "Table of content" or "How to View This README" is skipped
entirely: no record with either category reaches the flat list and no
bucket with either key reaches the index; but a document that opens
directly with such a heading on its first characters is not recognised,
and its entries are parsed under the current category. -/
theorem c4_skipped_sections (content : List Char) :
    (∀ t ∈ (parseContent content).1,
      t.category ≠ (("Table of content").data) ∧
      t.category ≠ (("How to View This README").data)) ∧
    (∀ p ∈ (parseContent content).2,
      p.1 ≠ (("Table of content").data) ∧
      p.1 ≠ (("How to View This README").data)) := by
  constructor
  · intro t ht
    have hmain := processSections_mem (fun t => t.category ∉ skippedCats)
      (fun cat sec t h => by
        have h2 := processSection_mem h
        show t.category ∉ skippedCats
        rw [h2.1]
        exact h2.2.1)
      _ _ _ _ (by simp) t ht
    simpa [skippedCats, not_or] using hmain
  · intro p hp
    have hmain := processSections_keys (fun k => k ∉ skippedCats)
      (fun cat sec hne => by
        obtain ⟨t, htmem⟩ := List.exists_mem_of_ne_nil _ hne
        exact (processSection_mem htmem).2.1)
      _ _ _ _ (by simp) p hp
    simpa [skippedCats, not_or] using hmain

/-- Claim C4, witness: the example document's first record carries neither
excluded category. -/
theorem c4_witness :
    toolA.category ≠ (("Table of content").data) ∧
    toolA.category ≠ (("How to View This README").data) :=
  (c4_skipped_sections doc1).1 toolA (by decide)

theorem indexAdd_keys_eq :
    ∀ (idx : Index) (c : List Char) (t : Tool),
      (indexAdd idx c t).map Prod.fst =
        if c ∈ idx.map Prod.fst then idx.map Prod.fst
        else idx.map Prod.fst ++ [c] := by
  intro idx c t
  induction idx with
  | nil => simp [indexAdd]
  | cons q rest ih =>
    obtain ⟨c0, ts⟩ := q
    simp only [indexAdd]
    by_cases hc : c0 = c
    · subst hc
      rw [if_pos rfl]
      simp
    · rw [if_neg hc]
      simp only [List.map_cons, ih]
      by_cases hmem : c ∈ rest.map Prod.fst
      · simp [hmem, Ne.symm hc]
      · simp [hmem, Ne.symm hc]

theorem indexAdd_buckets (tools : List Tool) (c : List Char) (t : Tool)
    (ht : t.category = c) :
    ∀ (idx : Index), (idx.map Prod.fst).Nodup →
      (∀ p ∈ idx, p.2 = tools.filter (fun x => decide (x.category = p.1))) →
      (c ∉ idx.map Prod.fst → tools.filter (fun x => decide (x.category = c)) = []) →
      ∀ p ∈ indexAdd idx c t,
        p.2 = (tools ++ [t]).filter (fun x => decide (x.category = p.1)) := by
  intro idx
  induction idx with
  | nil =>
    intro _ _ hnone p hp
    simp only [indexAdd, List.mem_singleton] at hp
    subst hp
    rw [List.filter_append, hnone (by simp)]
    simp [ht]
  | cons q rest ih =>
    intro hnodup hbuckets hnone p hp
    obtain ⟨c0, ts⟩ := q
    simp only [indexAdd] at hp
    by_cases hc : c0 = c
    · subst hc
      rw [if_pos rfl] at hp
      rcases List.mem_cons.mp hp with h | h
      · subst h
        have hts := hbuckets (c0, ts) (List.mem_cons_self _ _)
        rw [List.filter_append, ← hts]
        simp [ht]
      · have hkey : p.1 ≠ c0 := by
          intro heq
          have hmem0 : c0 ∈ rest.map Prod.fst := by
            rw [← heq]
            exact List.mem_map_of_mem Prod.fst h
          simp only [List.map_cons, List.nodup_cons] at hnodup
          exact hnodup.1 hmem0
        have hp2 := hbuckets p (List.mem_cons_of_mem _ h)
        rw [List.filter_append, hp2]
        simp [ht, Ne.symm hkey]
    · rw [if_neg hc] at hp
      rcases List.mem_cons.mp hp with h | h
      · subst h
        have hp2 := hbuckets (c0, ts) (List.mem_cons_self _ _)
        rw [List.filter_append, hp2]
        simp [ht, Ne.symm hc]
      · refine ih ?_ ?_ ?_ p h
        · simp only [List.map_cons, List.nodup_cons] at hnodup
          exact hnodup.2
        · intro p2 hp2
          exact hbuckets p2 (List.mem_cons_of_mem _ hp2)
        · intro hcnot
          apply hnone
          simp only [List.map_cons, List.mem_cons, not_or]
          exact ⟨Ne.symm hc, hcnot⟩

theorem indexAdd_inv {tools : List Tool} {idx : Index} {c : List Char} {t : Tool}
    (h : IndexInv tools idx) (ht : t.category = c) :
    IndexInv (tools ++ [t]) (indexAdd idx c t) := by
  obtain ⟨hnodup, hkeys, hbuckets⟩ := h
  have hnone : c ∉ idx.map Prod.fst →
      tools.filter (fun x => decide (x.category = c)) = [] := by
    intro hmem
    rw [List.filter_eq_nil_iff]
    intro a ha
    simp only [decide_eq_true_eq]
    intro heq
    exact hmem ((hkeys c).mpr (List.mem_map.mpr ⟨a, ha, heq⟩))
  refine ⟨?_, ?_, indexAdd_buckets tools c t ht idx hnodup hbuckets hnone⟩
  · rw [indexAdd_keys_eq]
    by_cases hmem : c ∈ idx.map Prod.fst
    · rw [if_pos hmem]
      exact hnodup
    · rw [if_neg hmem]
      simp [List.nodup_append, hnodup, hmem]
  · intro d
    rw [indexAdd_keys_eq]
    by_cases hmem : c ∈ idx.map Prod.fst
    · rw [if_pos hmem]
      have hcmem : c ∈ tools.map Tool.category := (hkeys c).mp hmem
      simp only [List.map_append, List.map_cons, List.map_nil, List.mem_append,
        List.mem_singleton, ht]
      constructor
      · intro hd
        exact Or.inl ((hkeys d).mp hd)
      · rintro (hd | hd)
        · exact (hkeys d).mpr hd
        · subst hd
          exact hmem
    · rw [if_neg hmem]
      simp [List.mem_append, hkeys d, ht]

theorem indexAddAll_inv :
    ∀ (ts : List Tool) (tools : List Tool) (idx : Index) (c : List Char),
      IndexInv tools idx → (∀ t ∈ ts, t.category = c) →
      IndexInv (tools ++ ts) (indexAddAll idx c ts) := by
  intro ts
  induction ts with
  | nil =>
    intro tools idx c h _
    simpa using h
  | cons t ts' ih =>
    intro tools idx c h hcat
    rw [indexAddAll_cons]
    have h2 := indexAdd_inv h (hcat t (List.mem_cons_self _ _))
    have h3 := ih (tools ++ [t]) (indexAdd idx c t) c h2
      (fun x hx => hcat x (List.mem_cons_of_mem _ hx))
    simpa [List.append_assoc] using h3

theorem processSections_inv :
    ∀ (secs : List (List Char)) (cat : List Char) (tools : List Tool) (idx : Index),
      IndexInv tools idx →
      IndexInv (processSections cat tools idx secs).1 (processSections cat tools idx secs).2 := by
  intro secs
  induction secs with
  | nil =>
    intro cat tools idx h
    simpa [processSections] using h
  | cons sec rest ih =>
    intro cat tools idx h
    simp only [processSections]
    exact ih _ _ _ (indexAddAll_inv _ _ _ _ h (fun t htm => (processSection_mem htm).1))

/-- Claim C9: the category index partitions the flat record list — its
keys are distinct and are exactly the category values occurring among the
flat list's records, and each bucket holds exactly the flat list's records
of its key's category, in flat-list relative order. -/
theorem c9_partition (content : List Char) :
    ((parseContent content).2.map Prod.fst).Nodup ∧
    (∀ c, c ∈ (parseContent content).2.map Prod.fst ↔
      c ∈ (parseContent content).1.map Tool.category) ∧
    (∀ p ∈ (parseContent content).2,
      p.2 = (parseContent content).1.filter (fun t => decide (t.category = p.1))) :=
  processSections_inv _ _ _ _ ⟨by simp, by simp, by simp⟩

/-- Claim C9, witness: on the example document the single bucket of the
index is exactly the flat list filtered to its key. -/
theorem c9_witness :
    ([toolA, toolB] : List Tool) =
      (parseContent doc1).1.filter (fun t => decide (t.category = (("General").data))) :=
  (c9_partition doc1).2.2 ((("General").data), [toolA, toolB]) (by decide)
